import Mathlib

set_option linter.unusedSectionVars false
set_option linter.unnecessarySimpa false
set_option linter.unusedVariables false

/-!
# Verification of the binary-space-partition tree (`src/lib.rs`)

Shallow embedding of the BSP tree library. The Rust code is generic over a
`Plane` trait providing `cut : &Self → Self → PlaneCut<Self>` and
`is_aligned : &Self → &Self → bool`; here the two trait methods are explicit
function parameters `cutF` and `alignedF`.

`BspNode::insert` and `add_side` are mutually recursive through the lists
returned by `cut`, and do not terminate for an adversarial `cut` (the code's
own documentation calls this out as a contract violation of the `Plane`
implementation).  The embedding therefore threads a fuel parameter through
`insert`; `none` means the fuel ran out.  Every other operation is a direct
translation.

`self.values[0]` in Rust panics on an empty vector; here it is `List.headI`
(nodes produced by this API always have non-empty `values`, which is proved
below as the non-emptiness invariant).
-/

/-- Rust `enum PlaneCut<T> { Sibling(T), Cut { front: Vec<T>, back: Vec<T> } }`. -/
inductive PlaneCut (T : Type) where
  | sibling (value : T)
  | cut (front : List T) (back : List T)
deriving DecidableEq

/-- Rust `struct BspNode<T> { values: Vec<T>, front: Option<Box<BspNode<T>>>,
back: Option<Box<BspNode<T>>> }`. -/
inductive BspNode (T : Type) where
  | mk (values : List T) (front : Option (BspNode T)) (back : Option (BspNode T))

namespace BspNode

variable {T : Type}

/-- Field accessor for `values`. -/
def values : BspNode T → List T
  | mk vs _ _ => vs

/-- Field accessor for `front`. -/
def front : BspNode T → Option (BspNode T)
  | mk _ f _ => f

/-- Field accessor for `back`. -/
def back : BspNode T → Option (BspNode T)
  | mk _ _ b => b

@[simp]
theorem values_mk (vs : List T) (f b : Option (BspNode T)) : (mk vs f b).values = vs := rfl

@[simp]
theorem front_mk (vs : List T) (f b : Option (BspNode T)) : (mk vs f b).front = f := rfl

@[simp]
theorem back_mk (vs : List T) (f b : Option (BspNode T)) : (mk vs f b).back = b := rfl

/-- Rust `BspNode::new`: a single-node tree holding one value. -/
def new (value : T) : BspNode T := mk [value] none none

/-- Rust `BspNode::is_leaf`: both children absent. -/
def is_leaf (t : BspNode T) : Bool := t.front.isNone && t.back.isNone

/-- Rust `BspNode::get_depth`. -/
def get_depth : BspNode T → Nat
  | mk _ f b =>
    let df := match f with
      | some n => get_depth n
      | none => 0
    let db := match b with
      | some n => get_depth n
      | none => 0
    1 + max df db

/-- `get_depth` lifted to an optional child, `0` when the child is absent. -/
def get_depthO : Option (BspNode T) → Nat
  | some n => get_depth n
  | none => 0

/-- The Rust loop `for p in iter { node.insert(p) }`: insert the values of a
list one at a time, in sequence order.  `ins` is the (fuelled) insertion
function; a `none` from `ins` (fuel exhaustion) aborts the whole fold. -/
def insertAll (ins : BspNode T → T → Option (BspNode T)) :
    BspNode T → List T → Option (BspNode T)
  | n, [] => some n
  | n, p :: ps =>
    match ins n p with
    | some n2 => insertAll ins n2 ps
    | none => none

/-- Rust free function `add_side`: attach-or-extend a child slot with a
sequence of incoming values.  Returns the new contents of the slot (wrapped in
an outer `Option` that propagates fuel exhaustion from `ins`). -/
def add_side (ins : BspNode T → T → Option (BspNode T))
    (side : Option (BspNode T)) (ps : List T) : Option (Option (BspNode T)) :=
  match side with
  | none =>
    match ps with
    | [] => some none
    | p :: rest => (insertAll ins (new p) rest).map some
  | some node => (insertAll ins node ps).map some

variable (cutF : T → T → PlaneCut T) [Inhabited T]

/-- Rust `BspNode::insert`, with fuel: classify `v` against the node's
reference plane `values[0]`; a `Sibling` is appended to `values`, a `Cut`
routes its `front`/`back` lists into the child slots through `add_side`. -/
def insert : Nat → BspNode T → T → Option (BspNode T)
  | 0, _, _ => none
  | fuel + 1, n, v =>
    match cutF n.values.headI v with
    | .sibling w => some (mk (n.values ++ [w]) n.front n.back)
    | .cut f b =>
      match add_side (insert fuel) n.front f, add_side (insert fuel) n.back b with
      | some f2, some b2 => some (mk n.values f2 b2)
      | _, _ => none

/-- A tree built from `BspNode::new(r)` by inserting the values of `vs` one at
a time. -/
def build (fuel : Nat) (r : T) (vs : List T) : Option (BspNode T) :=
  insertAll (insert cutF fuel) (new r) vs

variable (alignedF : T → T → Bool)

/-- Rust `BspNode::order`: appends the subtree's values to `out`, visiting
`front` before `values` before `back` when `base.is_aligned(values[0])`, and
`back` first otherwise. -/
def order : BspNode T → T → List T → List T
  | mk vs f b, base, out =>
    if alignedF base vs.headI then
      let out1 := match f with
        | some n => order n base out
        | none => out
      let out2 := out1 ++ vs
      match b with
        | some n => order n base out2
        | none => out2
    else
      let out1 := match b with
        | some n => order n base out
        | none => out
      let out2 := out1 ++ vs
      match f with
        | some n => order n base out2
        | none => out2

/-- Rust `BspNode::order_self`: order using the root's own reference plane as
the viewpoint. -/
def order_self (t : BspNode T) (out : List T) : List T :=
  order alignedF t t.values.headI out

/-- `order` of an optional child starting from an empty output. -/
def orderO (o : Option (BspNode T)) (base : T) : List T :=
  match o with
  | some n => order alignedF n base []
  | none => []

/-- All values stored in a tree, in structural order: front subtree, then the
node's own `values`, then the back subtree. -/
def treeVals : BspNode T → List T
  | mk vs f b =>
    (match f with
      | some n => treeVals n
      | none => []) ++ vs ++
    (match b with
      | some n => treeVals n
      | none => [])

/-- `treeVals` of an optional child. -/
def treeValsO : Option (BspNode T) → List T
  | some n => treeVals n
  | none => []

end BspNode

namespace BspNode

variable {T : Type}

/-- A predicate on nodes, lifted to an optional child slot (`none` passes). -/
inductive OptP (P : BspNode T → Prop) : Option (BspNode T) → Prop
  | none : OptP P none
  | some {n : BspNode T} : P n → OptP P (some n)

/-- Every node reachable in the tree has a non-empty `values` vector. -/
inductive AllNE : BspNode T → Prop
  | mk {vs : List T} {f b : Option (BspNode T)} :
      vs ≠ [] → OptP AllNE f → OptP AllNE b → AllNE (BspNode.mk vs f b)

/-- A relation on nodes, lifted to optional child slots: an absent slot may
become anything, a present slot must stay present and be related. -/
inductive OptRel (R : BspNode T → BspNode T → Prop) :
    Option (BspNode T) → Option (BspNode T) → Prop
  | none {o : Option (BspNode T)} : OptRel R none o
  | some {a b : BspNode T} : R a b → OptRel R (some a) (some b)

/-- `Extends t t2`: `t2` refines `t` without disturbing it — every node of `t`
is still present, its `values` list is a prefix of the corresponding list in
`t2` (so nothing is removed, reordered, or changed, and `values[0]` is
preserved), and existing children are never replaced, only extended. -/
inductive Extends : BspNode T → BspNode T → Prop
  | mk {vs vs2 : List T} {f f2 b b2 : Option (BspNode T)} :
      vs <+: vs2 → OptRel Extends f f2 → OptRel Extends b b2 →
      Extends (mk vs f b) (mk vs2 f2 b2)

/-- Structural induction principle for `BspNode`, phrased through the
optional children. -/
theorem strongRec {motive : BspNode T → Prop}
    (h : ∀ vs f b, (∀ n, f = some n → motive n) → (∀ n, b = some n → motive n) →
      motive (mk vs f b)) : ∀ t, motive t
  | mk vs f b =>
    h vs f b (fun n _ => strongRec h n) (fun n _ => strongRec h n)
decreasing_by
  · rename_i hn; subst hn; simp; omega
  · rename_i hn; subst hn; simp; omega

end BspNode

/-! ## The 1-D test plane (`Plane1D` from the crate's test module)

A value is a pair of an integer key and a boolean direction. -/

/-- Rust test type `struct Plane1D(i32, bool)` (the key embedded as `Int`:
the code only ever compares keys, never does arithmetic on them). -/
abbrev Plane1D := Int × Bool

/-- Rust `Plane::cut` for `Plane1D`: equal keys are siblings; otherwise the
comparison of the keys against the reference's direction picks the side. -/
def cut1D (p q : Plane1D) : PlaneCut Plane1D :=
  if p.1 = q.1 then .sibling q
  else if decide (q.1 < p.1) = p.2 then .cut [q] []
  else .cut [] [q]

/-- Rust `Plane::is_aligned` for `Plane1D`: the directions coincide. -/
def aligned1D (p q : Plane1D) : Bool := p.2 == q.2

/-- The strict key order induced by a shared direction `d`: the order in which
`cut1D` sends values to the front. -/
def keyLT (d : Bool) (a b : Int) : Prop := if d then a < b else b < a

/-- The reflexive key order induced by a shared direction `d`. -/
def keyLE (d : Bool) (a b : Int) : Prop := if d then a ≤ b else b ≤ a

/-- Search-tree invariant of a `Plane1D` tree whose values all share the
direction `d`: each node's values all equal `(k, d)` for the node's reference
key `k`, every key in the front subtree is `keyLT d`-below `k`, and every key
in the back subtree is `keyLT d`-above `k`. -/
inductive Inv1D (d : Bool) : BspNode Plane1D → Prop
  | mk {k : Int} {vs : List Plane1D} {f b : Option (BspNode Plane1D)} :
      vs ≠ [] →
      (∀ v ∈ vs, v = (k, d)) →
      BspNode.OptP (Inv1D d) f → BspNode.OptP (Inv1D d) b →
      (∀ n, f = some n → ∀ v ∈ BspNode.treeVals n, keyLT d v.1 k) →
      (∀ n, b = some n → ∀ v ∈ BspNode.treeVals n, keyLT d k v.1) →
      Inv1D d (BspNode.mk vs f b)

/-! ## Helper lemmas -/

namespace BspNode

variable {T : Type} [Inhabited T] (alignedF : T → T → Bool)

theorem order_append (t : BspNode T) : ∀ (base : T) (out : List T),
    order alignedF t base out = out ++ order alignedF t base [] := by
  induction t using strongRec with
  | h vs f b ihf ihb =>
    intro base out
    cases f with
    | none =>
      cases b with
      | none =>
        cases halign : alignedF base vs.headI <;> simp [order, halign]
      | some nb =>
        have IHb := ihb nb rfl base
        cases halign : alignedF base vs.headI <;> simp only [order, halign] <;> simp
        · rw [IHb out]
          simp [List.append_assoc]
        · rw [IHb (out ++ vs), IHb vs]
          simp [List.append_assoc]
    | some nf =>
      have IHf := ihf nf rfl base
      cases b with
      | none =>
        cases halign : alignedF base vs.headI <;> simp only [order, halign] <;> simp
        · rw [IHf (out ++ vs), IHf vs]
          simp [List.append_assoc]
        · rw [IHf out]
          simp [List.append_assoc]
      | some nb =>
        have IHb := ihb nb rfl base
        cases halign : alignedF base vs.headI <;> simp only [order, halign] <;> simp
        · rw [IHf (order alignedF nb base out ++ vs), IHb out,
            IHf (order alignedF nb base [] ++ vs)]
          simp [List.append_assoc]
        · rw [IHb (order alignedF nf base out ++ vs), IHf out,
            IHb (order alignedF nf base [] ++ vs)]
          simp [List.append_assoc]

theorem order_structure (vs : List T) (f b : Option (BspNode T)) (base : T) :
    order alignedF (mk vs f b) base [] =
      (if alignedF base vs.headI then orderO alignedF f base else orderO alignedF b base) ++
        vs ++
      (if alignedF base vs.headI then orderO alignedF b base else orderO alignedF f base) := by
  cases f with
  | none =>
    cases b with
    | none =>
      cases halign : alignedF base vs.headI <;> simp [order, orderO, halign]
    | some nb =>
      cases halign : alignedF base vs.headI <;> simp [order, orderO, halign]
      rw [order_append alignedF nb base vs]
  | some nf =>
    cases b with
    | none =>
      cases halign : alignedF base vs.headI <;> simp [order, orderO, halign]
      rw [order_append alignedF nf base vs]
    | some nb =>
      cases halign : alignedF base vs.headI <;> simp [order, orderO, halign]
      · rw [order_append alignedF nf base (order alignedF nb base [] ++ vs)]
        simp [List.append_assoc]
      · rw [order_append alignedF nb base (order alignedF nf base [] ++ vs)]
        simp [List.append_assoc]

theorem perm_rotate (a b c : List T) : ((a ++ b) ++ c).Perm ((c ++ b) ++ a) := by
  have h1 : ((a ++ b) ++ c).Perm (c ++ (a ++ b)) := List.perm_append_comm
  have h2 : (a ++ b).Perm (b ++ a) := List.perm_append_comm
  have h3 : (c ++ (a ++ b)).Perm (c ++ (b ++ a)) := h2.append_left c
  have h4 : ((a ++ b) ++ c).Perm (c ++ (b ++ a)) := h1.trans h3
  simpa [List.append_assoc] using h4

theorem order_perm (t : BspNode T) (base : T) :
    (order alignedF t base []).Perm (treeVals t) := by
  induction t using strongRec with
  | h vs f b ihf ihb =>
    rw [order_structure]
    have hf : (orderO alignedF f base).Perm (treeValsO f) := by
      cases f with
      | none => simp [orderO, treeValsO]
      | some nf => simpa [orderO, treeValsO] using ihf nf rfl
    have hb : (orderO alignedF b base).Perm (treeValsO b) := by
      cases b with
      | none => simp [orderO, treeValsO]
      | some nb => simpa [orderO, treeValsO] using ihb nb rfl
    have htv : treeVals (mk vs f b) = (treeValsO f ++ vs) ++ treeValsO b := by
      cases f <;> cases b <;> simp [treeVals, treeValsO, List.append_assoc]
    rw [htv]
    cases halign : alignedF base vs.headI
    · rw [if_neg (by simp), if_neg (by simp)]
      have h1 : ((orderO alignedF b base ++ vs) ++ orderO alignedF f base).Perm
          ((treeValsO b ++ vs) ++ treeValsO f) :=
        (hb.append (List.Perm.refl vs)).append hf
      have h2 := perm_rotate (treeValsO b) vs (treeValsO f)
      simpa [List.append_assoc] using h1.trans h2
    · rw [if_pos rfl, if_pos rfl]
      simpa [List.append_assoc] using (hf.append (List.Perm.refl vs)).append hb

theorem insertAll_cons (ins : BspNode T → T → Option (BspNode T)) (n : BspNode T)
    (p : T) (ps : List T) :
    insertAll ins n (p :: ps) = (ins n p).bind (fun n2 => insertAll ins n2 ps) := by
  cases h : ins n p <;> simp [insertAll, h]

theorem insertAll_rel {R : BspNode T → BspNode T → Prop}
    (hrefl : ∀ n, R n n) (htrans : ∀ a b c, R a b → R b c → R a c)
    (ins : BspNode T → T → Option (BspNode T)) (ps : List T)
    (hstep : ∀ n v n2, v ∈ ps → ins n v = some n2 → R n n2) :
    ∀ n n2, insertAll ins n ps = some n2 → R n n2 := by
  induction ps with
  | nil => intro n n2 h; simp [insertAll] at h; subst h; exact hrefl n
  | cons p ps ih =>
    intro n n2 h
    rw [insertAll_cons] at h
    cases hp : ins n p with
    | none => simp [hp] at h
    | some nmid =>
      rw [hp] at h
      simp at h
      exact htrans n nmid n2 (hstep n p nmid (by simp) hp)
        (ih (fun a v b hv => hstep a v b (by simp [hv])) nmid n2 h)

theorem OptRel_rfl (o : Option (BspNode T)) : OptRel Extends o o := by
  cases o with
  | none => exact .none
  | some n =>
    refine .some ?_
    induction n using strongRec with
    | h vs f b ihf ihb =>
      refine .mk (List.prefix_refl vs) ?_ ?_
      · cases hf : f with
        | none => exact .none
        | some nf => exact .some (ihf nf hf)
      · cases hb : b with
        | none => exact .none
        | some nb => exact .some (ihb nb hb)

theorem Extends_rfl (t : BspNode T) : Extends t t := by
  have h := OptRel_rfl (some t)
  cases h with
  | some h2 => exact h2

theorem Extends_trans : ∀ a b c : BspNode T, Extends a b → Extends b c → Extends a c := by
  intro a
  induction a using strongRec with
  | h vs f b ihf ihb =>
    intro t2 t3 h12 h23
    cases h12 with
    | mk hpre hof hob =>
      cases h23 with
      | mk hpre2 hof2 hob2 =>
        refine .mk (hpre.trans hpre2) ?_ ?_
        · cases hof with
          | none => exact .none
          | some hx =>
            cases hof2 with
            | some hy => exact .some (ihf _ rfl _ _ hx hy)
        · cases hob with
          | none => exact .none
          | some hx =>
            cases hob2 with
            | some hy => exact .some (ihb _ rfl _ _ hx hy)

theorem Extends_headI : ∀ t t2 : BspNode T, Extends t t2 → t.values ≠ [] →
    t2.values.headI = t.values.headI := by
  intro t t2 h hne
  cases h with
  | mk hpre hof hob =>
    rcases hpre with ⟨rest, hrest⟩
    simp only [values_mk] at hne ⊢
    rw [← hrest]
    rename_i vs vs2 f f2 b b2
    cases vs with
    | nil => exact absurd rfl hne
    | cons x xs => simp

variable (cutF : T → T → PlaneCut T)

theorem add_side_extends (ins : BspNode T → T → Option (BspNode T))
    (hstep : ∀ n v n2, ins n v = some n2 → Extends n n2)
    (o : Option (BspNode T)) (ps : List T) (o2 : Option (BspNode T))
    (h : add_side ins o ps = some o2) : OptRel Extends o o2 := by
  cases o with
  | none => exact .none
  | some node =>
    simp only [add_side] at h
    cases hall : insertAll ins node ps with
    | none => rw [hall] at h; simp at h
    | some t =>
      rw [hall] at h
      simp at h
      subst h
      exact .some (insertAll_rel Extends_rfl Extends_trans ins ps
        (fun a v b _ hv => hstep a v b hv) node t hall)

theorem insert_extends : ∀ (fuel : Nat) (n : BspNode T) (v : T) (n2 : BspNode T),
    insert cutF fuel n v = some n2 → Extends n n2 := by
  intro fuel
  induction fuel with
  | zero => intro n v n2 h; simp [insert] at h
  | succ fuel ih =>
    intro n v n2 h
    cases n with
    | mk vs f b =>
      simp only [insert, values_mk, front_mk, back_mk] at h
      cases hcut : cutF vs.headI v with
      | sibling w =>
        rw [hcut] at h
        simp at h
        subst h
        exact .mk (List.prefix_append vs [w]) (OptRel_rfl f) (OptRel_rfl b)
      | cut fl bl =>
        cases hf2 : add_side (insert cutF fuel) f fl with
        | none => simp [hcut, hf2] at h
        | some f2 =>
          cases hb2 : add_side (insert cutF fuel) b bl with
          | none => simp [hcut, hf2, hb2] at h
          | some b2 =>
            simp [hcut, hf2, hb2] at h
            subst h
            exact .mk (List.prefix_refl vs)
              (add_side_extends (insert cutF fuel) ih f fl f2 hf2)
              (add_side_extends (insert cutF fuel) ih b bl b2 hb2)

theorem insertAll_pred {P : BspNode T → Prop} (ins : BspNode T → T → Option (BspNode T))
    (ps : List T) (hstep : ∀ n v n2, v ∈ ps → ins n v = some n2 → P n → P n2) :
    ∀ n n2, insertAll ins n ps = some n2 → P n → P n2 :=
  fun n n2 h hp =>
    insertAll_rel (R := fun a b => P a → P b) (fun _ hx => hx)
      (fun _ _ _ hab hbc hx => hbc (hab hx)) ins ps hstep n n2 h hp

theorem new_allNE (v : T) : AllNE (new v) := .mk (by simp) .none .none

theorem add_side_allNE (ins : BspNode T → T → Option (BspNode T))
    (hstep : ∀ n v n2, ins n v = some n2 → AllNE n → AllNE n2)
    (o : Option (BspNode T)) (ps : List T) (o2 : Option (BspNode T))
    (h : add_side ins o ps = some o2) (ho : OptP AllNE o) : OptP AllNE o2 := by
  cases o with
  | none =>
    cases ps with
    | nil =>
      simp [add_side] at h
      subst h
      exact .none
    | cons p rest =>
      simp only [add_side] at h
      cases hall : insertAll ins (new p) rest with
      | none => rw [hall] at h; simp at h
      | some t =>
        rw [hall] at h
        simp at h
        subst h
        exact .some (insertAll_pred ins rest (fun a v b _ hv => hstep a v b hv)
          (new p) t hall (new_allNE p))
  | some node =>
    simp only [add_side] at h
    cases hall : insertAll ins node ps with
    | none => rw [hall] at h; simp at h
    | some t =>
      rw [hall] at h
      simp at h
      subst h
      cases ho with
      | some hn =>
        exact .some (insertAll_pred ins ps (fun a v b _ hv => hstep a v b hv)
          node t hall hn)

theorem insert_allNE : ∀ (fuel : Nat) (n : BspNode T) (v : T) (n2 : BspNode T),
    insert cutF fuel n v = some n2 → AllNE n → AllNE n2 := by
  intro fuel
  induction fuel with
  | zero => intro n v n2 h; simp [insert] at h
  | succ fuel ih =>
    intro n v n2 h hne
    cases n with
    | mk vs f b =>
      cases hne with
      | mk hvs hf hb =>
        simp only [insert, values_mk, front_mk, back_mk] at h
        cases hcut : cutF vs.headI v with
        | sibling w =>
          rw [hcut] at h
          simp at h
          subst h
          exact .mk (by simp) hf hb
        | cut fl bl =>
          cases hf2 : add_side (insert cutF fuel) f fl with
          | none => simp [hcut, hf2] at h
          | some f2 =>
            cases hb2 : add_side (insert cutF fuel) b bl with
            | none => simp [hcut, hf2, hb2] at h
            | some b2 =>
              simp [hcut, hf2, hb2] at h
              subst h
              exact .mk hvs (add_side_allNE (insert cutF fuel) ih f fl f2 hf2 hf)
                (add_side_allNE (insert cutF fuel) ih b bl b2 hb2 hb)

@[simp]
theorem treeVals_mk (vs : List T) (f b : Option (BspNode T)) :
    treeVals (mk vs f b) = treeValsO f ++ vs ++ treeValsO b := by
  cases f <;> cases b <;> simp [treeVals, treeValsO]

/-- The values produced by one `cut` classification, whichever variant. -/
def cutVals : PlaneCut T → List T
  | .sibling w => [w]
  | .cut f b => f ++ b

theorem insertAll_treeVals (ins : BspNode T → T → Option (BspNode T)) (ps : List T)
    (hstep : ∀ n v n2, v ∈ ps → ins n v = some n2 → (treeVals n2).Perm (v :: treeVals n)) :
    ∀ n n2, insertAll ins n ps = some n2 → (treeVals n2).Perm (ps ++ treeVals n) := by
  induction ps with
  | nil =>
    intro n n2 h
    simp [insertAll] at h
    subst h
    simp
  | cons p ps ih =>
    intro n n2 h
    rw [insertAll_cons] at h
    cases hp : ins n p with
    | none => simp [hp] at h
    | some nmid =>
      rw [hp] at h
      simp at h
      have h1 := ih (fun a v b hv => hstep a v b (by simp [hv])) nmid n2 h
      have h2 := hstep n p nmid (by simp) hp
      have h3 : (ps ++ treeVals nmid).Perm (ps ++ (p :: treeVals n)) := h2.append_left ps
      have h4 : (ps ++ (p :: treeVals n)).Perm (p :: (ps ++ treeVals n)) :=
        List.perm_middle
      exact (h1.trans h3).trans h4

theorem add_side_treeVals (ins : BspNode T → T → Option (BspNode T)) (ps : List T)
    (hstep : ∀ n v n2, v ∈ ps → ins n v = some n2 → (treeVals n2).Perm (v :: treeVals n))
    (o : Option (BspNode T)) (o2 : Option (BspNode T))
    (h : add_side ins o ps = some o2) : (treeValsO o2).Perm (ps ++ treeValsO o) := by
  cases o with
  | none =>
    cases ps with
    | nil =>
      simp [add_side] at h
      subst h
      simp [treeValsO]
    | cons p rest =>
      simp only [add_side] at h
      cases hall : insertAll ins (new p) rest with
      | none => rw [hall] at h; simp at h
      | some t =>
        rw [hall] at h
        simp at h
        subst h
        have h1 := insertAll_treeVals ins rest
          (fun a v b hv => hstep a v b (by simp [hv])) (new p) t hall
        have h2 : treeVals (new p) = [p] := by simp [new, treeValsO]
        rw [h2] at h1
        have h3 : (rest ++ [p]).Perm (p :: rest) := by
          simpa using (@List.perm_middle T p rest [])
        simpa [treeValsO] using h1.trans h3
  | some node =>
    simp only [add_side] at h
    cases hall : insertAll ins node ps with
    | none => rw [hall] at h; simp at h
    | some t =>
      rw [hall] at h
      simp at h
      subst h
      exact insertAll_treeVals ins ps hstep node t hall

theorem insert_treeVals (hcons : ∀ p q, cutVals (cutF p q) = [q]) :
    ∀ (fuel : Nat) (n : BspNode T) (v : T) (n2 : BspNode T),
    insert cutF fuel n v = some n2 → (treeVals n2).Perm (v :: treeVals n) := by
  intro fuel
  induction fuel with
  | zero => intro n v n2 h; simp [insert] at h
  | succ fuel ih =>
    intro n v n2 h
    cases n with
    | mk vs f b =>
      simp only [insert, values_mk, front_mk, back_mk] at h
      cases hcut : cutF vs.headI v with
      | sibling w =>
        rw [hcut] at h
        simp at h
        subst h
        have hw : v = w := by
          have := hcons vs.headI v
          rw [hcut] at this
          simpa [cutVals] using this.symm
        subst hw
        have : treeValsO f ++ (vs ++ [v]) ++ treeValsO b =
            (treeValsO f ++ vs) ++ (v :: treeValsO b) := by
          simp [List.append_assoc]
        rw [treeVals_mk, treeVals_mk, this]
        have := (@List.perm_middle T v (treeValsO f ++ vs) (treeValsO b)).symm
        simpa [List.append_assoc] using this.symm
      | cut fl bl =>
        have hflbl : fl ++ bl = [v] := by
          have := hcons vs.headI v
          rw [hcut] at this
          simpa [cutVals] using this
        cases hf2 : add_side (insert cutF fuel) f fl with
        | none => simp [hcut, hf2] at h
        | some f2 =>
          cases hb2 : add_side (insert cutF fuel) b bl with
          | none => simp [hcut, hf2, hb2] at h
          | some b2 =>
            simp [hcut, hf2, hb2] at h
            subst h
            have hfp := add_side_treeVals (insert cutF fuel) fl
              (fun a w c _ hw => ih a w c hw) f f2 hf2
            have hbp := add_side_treeVals (insert cutF fuel) bl
              (fun a w c _ hw => ih a w c hw) b b2 hb2
            rw [treeVals_mk, treeVals_mk]
            have hall : (treeValsO f2 ++ vs ++ treeValsO b2).Perm
                ((fl ++ treeValsO f) ++ vs ++ (bl ++ treeValsO b)) :=
              (hfp.append (List.Perm.refl vs)).append hbp
            have hcases : (fl = [] ∧ bl = [v]) ∨ (fl = [v] ∧ bl = []) := by
              cases fl with
              | nil => left; simpa using hflbl
              | cons x xs =>
                simp only [List.cons_append, List.cons.injEq, List.append_eq_nil] at hflbl
                rcases hflbl with ⟨hx, hxs, hbl0⟩
                right
                subst hx
                subst hxs
                subst hbl0
                simp
            rcases hcases with ⟨hfl, hbl⟩ | ⟨hfl, hbl⟩ <;> subst hfl <;> subst hbl
            · refine hall.trans ?_
              simp only [List.nil_append]
              have hmid := @List.perm_middle T v (treeValsO f ++ vs) (treeValsO b)
              simpa [List.append_assoc] using hmid
            · simpa [List.append_assoc] using hall

theorem add_side_nil (ins : BspNode T → T → Option (BspNode T)) (o : Option (BspNode T)) :
    add_side ins o [] = some o := by
  cases o <;> simp [add_side, insertAll]

theorem mem_treeValsO (w : T) (o : Option (BspNode T)) :
    w ∈ treeValsO o ↔ ∃ n, o = some n ∧ w ∈ treeVals n := by
  cases o <;> simp [treeValsO]

end BspNode

/-! ## Lemmas about the 1-D plane -/

open BspNode

theorem cut1D_cons (p q : Plane1D) : cutVals (cut1D p q) = [q] := by
  unfold cut1D
  split_ifs <;> simp [cutVals]

theorem keyLT_trans {d : Bool} {a b c : Int} (h1 : keyLT d a b) (h2 : keyLT d b c) :
    keyLT d a c := by
  cases d <;> simp [keyLT] at * <;> omega

theorem keyLT_le {d : Bool} {a b : Int} (h : keyLT d a b) : keyLE d a b := by
  cases d <;> simp [keyLT, keyLE] at * <;> omega

theorem keyLE_refl (d : Bool) (a : Int) : keyLE d a a := by
  cases d <;> simp [keyLE]

theorem cut1D_classify (k : Int) (d : Bool) (q : Plane1D) :
    (q.1 = k ∧ cut1D (k, d) q = .sibling q) ∨
    (keyLT d q.1 k ∧ cut1D (k, d) q = .cut [q] []) ∨
    (keyLT d k q.1 ∧ cut1D (k, d) q = .cut [] [q]) := by
  by_cases h1 : (k : Int) = q.1
  · left
    exact ⟨h1.symm, by simp [cut1D, h1]⟩
  · by_cases h2 : decide (q.1 < k) = d
    · right; left
      refine ⟨?_, by simp [cut1D, h1, h2]⟩
      cases d <;> simp [keyLT] <;> simp at h2 <;> omega
    · right; right
      refine ⟨?_, by simp [cut1D, h1, h2]⟩
      cases d <;> simp [keyLT] <;> simp at h2 <;> omega

theorem inv1D_new {d : Bool} (p : Plane1D) (hp : p.2 = d) : Inv1D d (new p) := by
  refine .mk (k := p.1) (by simp [new]) ?_ .none .none (by simp [new]) (by simp [new])
  intro v hv
  simp [new] at hv
  subst hv
  rw [← hp]

theorem inv1D_headI {d : Bool} {k : Int} {vs : List Plane1D} (hne : vs ≠ [])
    (hvs : ∀ v ∈ vs, v = (k, d)) : vs.headI = (k, d) := by
  cases vs with
  | nil => exact absurd rfl hne
  | cons x xs => exact hvs x (by simp)

theorem add_side_inv1D {d : Bool} {fuel : Nat}
    (ih : ∀ (n : BspNode Plane1D) (v : Plane1D) (n2 : BspNode Plane1D), v.2 = d →
      insert cut1D fuel n v = some n2 → Inv1D d n → Inv1D d n2)
    (o : Option (BspNode Plane1D)) (ps : List Plane1D) (o2 : Option (BspNode Plane1D))
    (hd : ∀ p ∈ ps, p.2 = d)
    (h : add_side (insert cut1D fuel) o ps = some o2)
    (ho : OptP (Inv1D d) o) : OptP (Inv1D d) o2 := by
  cases o with
  | none =>
    cases ps with
    | nil =>
      simp [add_side] at h
      subst h
      exact .none
    | cons p rest =>
      simp only [add_side] at h
      cases hall : insertAll (insert cut1D fuel) (new p) rest with
      | none => rw [hall] at h; simp at h
      | some t =>
        rw [hall] at h
        simp at h
        subst h
        refine .some (insertAll_pred (P := Inv1D d) _ rest
          (fun a v b hv hins hp => ih a v b (hd v (by simp [hv])) hins hp)
          (new p) t hall (inv1D_new p (hd p (by simp))))
  | some node =>
    simp only [add_side] at h
    cases hall : insertAll (insert cut1D fuel) node ps with
    | none => rw [hall] at h; simp at h
    | some t =>
      rw [hall] at h
      simp at h
      subst h
      cases ho with
      | some hn =>
        exact .some (insertAll_pred (P := Inv1D d) _ ps
          (fun a v b hv hins hp => ih a v b (hd v hv) hins hp) node t hall hn)

theorem insert_inv1D {d : Bool} : ∀ (fuel : Nat) (n : BspNode Plane1D) (v : Plane1D)
    (n2 : BspNode Plane1D), v.2 = d →
    insert cut1D fuel n v = some n2 → Inv1D d n → Inv1D d n2 := by
  intro fuel
  induction fuel with
  | zero => intro n v n2 _ h; simp [BspNode.insert] at h
  | succ fuel ih =>
    intro n v n2 hvd h hinv
    cases n with
    | mk vs f b =>
      cases hinv with
      | @mk k _ _ _ hne hvs hof hob hbf hbb =>
        have hhead : vs.headI = (k, d) := inv1D_headI hne hvs
        simp only [BspNode.insert, values_mk, front_mk, back_mk] at h
        rw [hhead] at h
        have hstep : ∀ (a : BspNode Plane1D) (w : Plane1D) (c : BspNode Plane1D),
            insert cut1D fuel a w = some c → (treeVals c).Perm (w :: treeVals a) :=
          fun a w c hw => insert_treeVals cut1D cut1D_cons fuel a w c hw
        rcases cut1D_classify k d v with ⟨hq, hcut⟩ | ⟨hlt, hcut⟩ | ⟨hgt, hcut⟩
        · rw [hcut] at h
          simp at h
          subst h
          refine .mk (k := k) (by simp) ?_ hof hob hbf hbb
          intro w hw
          simp at hw
          rcases hw with hw | hw
          · exact hvs w hw
          · subst hw
            have : w = (w.1, w.2) := rfl
            rw [this, hq, hvd]
        · cases hf2 : add_side (insert cut1D fuel) f [v] with
          | none => simp [hcut, hf2] at h
          | some f2 =>
            simp [hcut, hf2, add_side_nil] at h
            subst h
            refine .mk (k := k) hne hvs ?_ hob ?_ hbb
            · exact add_side_inv1D ih f [v] f2 (by simpa using hvd) hf2 hof
            · intro nf2 hnf2 w hw
              subst hnf2
              have hperm := add_side_treeVals (insert cut1D fuel) [v]
                (fun a u c _ hu => hstep a u c hu) f (some nf2) hf2
              have hw2 : w ∈ treeValsO (some nf2) := by simpa [treeValsO] using hw
              have hw3 : w ∈ [v] ++ treeValsO f := hperm.mem_iff.mp hw2
              simp at hw3
              rcases hw3 with hw3 | hw3
              · subst hw3; exact hlt
              · rcases (mem_treeValsO w f).mp hw3 with ⟨nf, hnf, hwnf⟩
                exact hbf nf hnf w hwnf
        · cases hb2 : add_side (insert cut1D fuel) b [v] with
          | none => simp [hcut, add_side_nil, hb2] at h
          | some b2 =>
            simp [hcut, hb2, add_side_nil] at h
            subst h
            refine .mk (k := k) hne hvs hof ?_ hbf ?_
            · exact add_side_inv1D ih b [v] b2 (by simpa using hvd) hb2 hob
            · intro nb2 hnb2 w hw
              subst hnb2
              have hperm := add_side_treeVals (insert cut1D fuel) [v]
                (fun a u c _ hu => hstep a u c hu) b (some nb2) hb2
              have hw2 : w ∈ treeValsO (some nb2) := by simpa [treeValsO] using hw
              have hw3 : w ∈ [v] ++ treeValsO b := hperm.mem_iff.mp hw2
              simp at hw3
              rcases hw3 with hw3 | hw3
              · subst hw3; exact hgt
              · rcases (mem_treeValsO w b).mp hw3 with ⟨nb, hnb, hwnb⟩
                exact hbb nb hnb w hwnb

theorem pairwise_const {d : Bool} {k : Int} : ∀ (l : List Plane1D), (∀ v ∈ l, v = (k, d)) →
    List.Pairwise (fun a b : Plane1D => keyLE d a.1 b.1) l := by
  intro l
  induction l with
  | nil => intro _; simp
  | cons x xs ihl =>
    intro hl
    rw [List.pairwise_cons]
    constructor
    · intro v hv
      rw [hl x (by simp), hl v (by simp [hv])]
      exact keyLE_refl d k
    · exact ihl (fun v hv => hl v (by simp [hv]))

theorem inv1D_pairwise {d : Bool} : ∀ (t : BspNode Plane1D), Inv1D d t →
    List.Pairwise (fun a b : Plane1D => keyLE d a.1 b.1) (treeVals t) := by
  intro t
  induction t using strongRec with
  | h vs f b ihf ihb =>
    intro hinv
    cases hinv with
    | @mk k _ _ _ hne hvs hof hob hbf hbb =>
      rw [treeVals_mk]
      have hmemf : ∀ w ∈ treeValsO f, keyLT d w.1 k := by
        intro w hw
        rcases (mem_treeValsO w f).mp hw with ⟨nf, hnf, hwnf⟩
        exact hbf nf hnf w hwnf
      have hmemb : ∀ w ∈ treeValsO b, keyLT d k w.1 := by
        intro w hw
        rcases (mem_treeValsO w b).mp hw with ⟨nb, hnb, hwnb⟩
        exact hbb nb hnb w hwnb
      have hpf : List.Pairwise (fun a b : Plane1D => keyLE d a.1 b.1) (treeValsO f) := by
        cases hof with
        | none => simp [treeValsO]
        | some hx => simpa [treeValsO] using ihf _ rfl hx
      have hpb : List.Pairwise (fun a b : Plane1D => keyLE d a.1 b.1) (treeValsO b) := by
        cases hob with
        | none => simp [treeValsO]
        | some hx => simpa [treeValsO] using ihb _ rfl hx
      have hpv : List.Pairwise (fun a b : Plane1D => keyLE d a.1 b.1) vs :=
        pairwise_const vs hvs
      rw [List.pairwise_append]
      refine ⟨?_, hpb, ?_⟩
      · rw [List.pairwise_append]
        refine ⟨hpf, hpv, ?_⟩
        intro a ha c hc
        rw [hvs c hc]
        exact keyLT_le (hmemf a ha)
      · intro a ha c hc
        simp at ha
        rcases ha with ha | ha
        · exact keyLT_le (keyLT_trans (hmemf a ha) (hmemb c hc))
        · rw [hvs a ha]
          exact keyLT_le (hmemb c hc)

theorem inv1D_order {d : Bool} (base : Plane1D) (hb : base.2 = d) :
    ∀ (t : BspNode Plane1D), Inv1D d t → order aligned1D t base [] = treeVals t := by
  intro t
  induction t using strongRec with
  | h vs f b ihf ihb =>
    intro hinv
    cases hinv with
    | @mk k _ _ _ hne hvs hof hob hbf hbb =>
      have hhead : vs.headI = (k, d) := inv1D_headI hne hvs
      have hal : aligned1D base vs.headI = true := by
        simp [aligned1D, hhead, hb]
      have hordf : orderO aligned1D f base = treeValsO f := by
        cases hof with
        | none => simp [orderO, treeValsO]
        | some hx =>
          simp only [orderO, treeValsO]
          exact ihf _ rfl hx
      have hordb : orderO aligned1D b base = treeValsO b := by
        cases hob with
        | none => simp [orderO, treeValsO]
        | some hx =>
          simp only [orderO, treeValsO]
          exact ihb _ rfl hx
      rw [order_structure, treeVals_mk, if_pos hal, if_pos hal, hordf, hordb]

theorem build_inv1D {d : Bool} (fuel : Nat) (r : Plane1D) (vs : List Plane1D)
    (t : BspNode Plane1D) (hr : r.2 = d) (hvs : ∀ v ∈ vs, v.2 = d)
    (h : build cut1D fuel r vs = some t) : Inv1D d t :=
  insertAll_pred (P := Inv1D d) _ vs
    (fun a v b hv hins hp => insert_inv1D fuel a v b (hvs v hv) hins hp)
    (new r) t h (inv1D_new r hr)

theorem build_treeVals {T : Type} [Inhabited T] (cutF : T → T → PlaneCut T)
    (hcons : ∀ p q, cutVals (cutF p q) = [q]) (fuel : Nat) (r : T) (vs : List T)
    (t : BspNode T) (h : build cutF fuel r vs = some t) : (treeVals t).Perm (r :: vs) := by
  have h1 := insertAll_treeVals (insert cutF fuel) vs
    (fun a w c _ hw => insert_treeVals cutF hcons fuel a w c hw) (new r) t h
  have h2 : treeVals (new r) = [r] := by simp [new, treeValsO]
  rw [h2] at h1
  exact h1.trans (by simpa using @List.perm_middle T r vs [])

/-! ## Claim theorems -/

/-- Claim C1: conservation of values by ordering — for every tree built from a
root value by a finite sequence of `insert` calls (any `Plane` implementation,
any fuel that suffices), and every viewpoint `base`, `order` appends to `out`
exactly the values stored in the tree: the appended block is a permutation of
the multiset of all entries of every node's `values` vector, and its length
equals the number of stored values. -/
theorem C1_conservation {T : Type} [Inhabited T] (cutF : T → T → PlaneCut T)
    (alignedF : T → T → Bool) (fuel : Nat) (r : T) (vs : List T) (t : BspNode T)
    (hbuild : build cutF fuel r vs = some t) (base : T) (out : List T) :
    order alignedF t base out = out ++ order alignedF t base [] ∧
    (order alignedF t base []).Perm (treeVals t) ∧
    (order alignedF t base []).length = (treeVals t).length :=
  ⟨order_append alignedF t base out, order_perm alignedF t base,
    (order_perm alignedF t base).length_eq⟩

/-- Witness for C1 at a concrete two-node `Plane1D` tree. -/
theorem C1_conservation_witness :
    order aligned1D (mk [((0 : Int), true)] none (some (new ((1 : Int), true))))
        ((0 : Int), true) [] =
      [((0 : Int), true), ((1 : Int), true)] ∧
    (order aligned1D (mk [((0 : Int), true)] none (some (new ((1 : Int), true))))
        ((0 : Int), true) []).Perm
      (treeVals (mk [((0 : Int), true)] none (some (new ((1 : Int), true))))) :=
  ⟨rfl, (C1_conservation cut1D aligned1D 2 ((0 : Int), true) [((1 : Int), true)]
    (mk [((0 : Int), true)] none (some (new ((1 : Int), true)))) rfl
    ((0 : Int), true) []).2.1⟩

/-- Claim C3: the attach-or-extend policy of `add_side` — an empty slot stays
empty on an empty sequence; an empty slot with a non-empty sequence becomes a
new subtree rooted at the first value with the rest inserted one at a time in
sequence order; a filled slot has every value inserted into it one at a time,
and the existing root is not replaced (its `values` survive as a prefix). -/
theorem C3_add_side {T : Type} [Inhabited T] (ins : BspNode T → T → Option (BspNode T)) :
    (add_side ins (none : Option (BspNode T)) ([] : List T) = some none) ∧
    (∀ (p : T) (ps : List T),
      add_side ins none (p :: ps) = (insertAll ins (new p) ps).map some) ∧
    (∀ (n : BspNode T) (ps : List T),
      add_side ins (some n) ps = (insertAll ins n ps).map some) ∧
    (∀ (n : BspNode T) (p : T) (ps : List T),
      insertAll ins n (p :: ps) = (ins n p).bind (fun n2 => insertAll ins n2 ps)) ∧
    (∀ (cutF : T → T → PlaneCut T) (fuel : Nat) (n t : BspNode T) (ps : List T),
      add_side (insert cutF fuel) (some n) ps = some (some t) → n.values <+: t.values) := by
  refine ⟨rfl, fun p ps => rfl, fun n ps => rfl, insertAll_cons ins, ?_⟩
  intro cutF fuel n t ps h
  simp only [add_side] at h
  cases hall : insertAll (insert cutF fuel) n ps with
  | none => rw [hall] at h; simp at h
  | some t2 =>
    rw [hall] at h
    simp at h
    subst h
    have hext := insertAll_rel Extends_rfl Extends_trans _ ps
      (fun a v c _ hv => insert_extends cutF fuel a v c hv) n t2 hall
    cases hext with
    | mk hpre _ _ => simpa using hpre

/-- Witness for C3 at a concrete `Plane1D` slot already holding a subtree. -/
theorem C3_add_side_witness :
    add_side (insert cut1D 2) (some (new ((0 : Int), true))) [((1 : Int), true)] =
      some (some (mk [((0 : Int), true)] none (some (new ((1 : Int), true))))) ∧
    (new ((0 : Int), true)).values <+:
      (mk [((0 : Int), true)] none (some (new ((1 : Int), true)))).values :=
  ⟨rfl, (C3_add_side (insert cut1D 2)).2.2.2.2 cut1D 2 (new ((0 : Int), true))
    (mk [((0 : Int), true)] none (some (new ((1 : Int), true)))) [((1 : Int), true)] rfl⟩

/-- Claim C4: insertion at a node — a `Sibling(w)` result appends `w` at the
end of `values` and leaves the children untouched; a `Cut` result leaves
`values` unchanged and routes the front and back lists into the child slots
through `add_side`; in particular a single-node tree receiving one value that
classifies to the front and one that classifies to the back keeps its root
`values` and gains two one-node leaf children. -/
theorem C4_insert {T : Type} [Inhabited T] (cutF : T → T → PlaneCut T) :
    (∀ (fuel : Nat) (n : BspNode T) (v w : T), cutF n.values.headI v = .sibling w →
      insert cutF (fuel + 1) n v = some (mk (n.values ++ [w]) n.front n.back)) ∧
    (∀ (fuel : Nat) (n : BspNode T) (v : T) (fl bl : List T),
      cutF n.values.headI v = .cut fl bl →
      insert cutF (fuel + 1) n v =
        (add_side (insert cutF fuel) n.front fl).bind (fun f2 =>
          (add_side (insert cutF fuel) n.back bl).bind (fun b2 =>
            some (mk n.values f2 b2)))) ∧
    (∀ (fuel : Nat) (r v1 v2 : T), cutF r v1 = .cut [v1] [] → cutF r v2 = .cut [] [v2] →
      insert cutF (fuel + 1) (new r) v1 = some (mk [r] (some (new v1)) none) ∧
      insert cutF (fuel + 1) (mk [r] (some (new v1)) none) v2 =
        some (mk [r] (some (new v1)) (some (new v2)))) := by
  refine ⟨?_, ?_, ?_⟩
  · intro fuel n v w hcut
    simp [BspNode.insert, hcut]
  · intro fuel n v fl bl hcut
    cases hf2 : add_side (insert cutF fuel) n.front fl with
    | none => simp [BspNode.insert, hcut, hf2]
    | some f2 =>
      cases hb2 : add_side (insert cutF fuel) n.back bl with
      | none => simp [BspNode.insert, hcut, hf2, hb2]
      | some b2 => simp [BspNode.insert, hcut, hf2, hb2]
  · intro fuel r v1 v2 h1 h2
    constructor
    · have hh : (new r).values.headI = r := by simp [new]
      simp [BspNode.insert, hh, h1, add_side, insertAll, new]
    · have hh : (mk [r] (some (new v1)) none).values.headI = r := by simp
      simp [BspNode.insert, hh, h2, add_side, insertAll, new]

/-- Witness for C4 with the `Plane1D` implementation: root `(1,true)`, one
value to the front, one to the back. -/
theorem C4_insert_witness :
    insert cut1D 1 (new ((1 : Int), true)) ((0 : Int), true) =
      some (mk [((1 : Int), true)] (some (new ((0 : Int), true))) none) ∧
    insert cut1D 1 (mk [((1 : Int), true)] (some (new ((0 : Int), true))) none)
        ((2 : Int), true) =
      some (mk [((1 : Int), true)] (some (new ((0 : Int), true)))
        (some (new ((2 : Int), true)))) :=
  (C4_insert cut1D).2.2 0 ((1 : Int), true) ((0 : Int), true) ((2 : Int), true) rfl rfl

/-- Claim C5: traversal order of `order` — at every node the output appended
after the prior contents of `out` is: the recursive ordering of the former
child, then the node's own `values` in stored order, then the recursive
ordering of the latter child, where former/latter is front/back when
`base.is_aligned(values[0])` holds at that node and back/front otherwise; the
alignment test is re-evaluated at each node against its own reference plane. -/
theorem C5_order {T : Type} [Inhabited T] (alignedF : T → T → Bool) (vs : List T)
    (f b : Option (BspNode T)) (base : T) (out : List T) :
    order alignedF (mk vs f b) base out =
      out ++
        (if alignedF base vs.headI then orderO alignedF f base else orderO alignedF b base)
        ++ vs ++
        (if alignedF base vs.headI then orderO alignedF b base else orderO alignedF f base) := by
  rw [order_append, order_structure]
  simp [List.append_assoc]

/-- Claim C6: depth correctness — `get_depth` is one plus the maximum of the
children's depths (`0` for an absent child), equals `1` exactly on leaves
whatever their sibling count, and is always at least `1`. -/
theorem C6_depth {T : Type} (t : BspNode T) :
    get_depth t = 1 + max (get_depthO t.front) (get_depthO t.back) ∧
    (is_leaf t = true → get_depth t = 1) ∧
    1 ≤ get_depth t := by
  cases t with
  | mk vs f b =>
    refine ⟨?_, ?_, ?_⟩
    · cases f <;> cases b <;> simp [get_depth, get_depthO]
    · intro hl
      simp [is_leaf, Option.isNone_iff_eq_none] at hl
      rcases hl with ⟨hf, hb⟩
      subst hf
      subst hb
      simp [get_depth]
    · cases f <;> cases b <;> simp [get_depth]

/-- Witness for C6 at a concrete leaf with two sibling values. -/
theorem C6_depth_witness :
    is_leaf (mk [((5 : Int), true), ((5 : Int), true)] none none) = true ∧
    get_depth (mk [((5 : Int), true), ((5 : Int), true)] none none) = 1 :=
  ⟨rfl, (C6_depth (mk [((5 : Int), true), ((5 : Int), true)] none none)).2.1 rfl⟩

/-- Claim C7: non-emptiness invariant — `new` creates a node with a non-empty
`values` vector, `insert` preserves reachable non-emptiness (including the
nodes created through `add_side`), hence every node of a built tree has a
non-empty `values` vector. -/
theorem C7_nonempty {T : Type} [Inhabited T] (cutF : T → T → PlaneCut T) (fuel : Nat) :
    (∀ v : T, AllNE (new v)) ∧
    (∀ (n : BspNode T) (v : T) (n2 : BspNode T), AllNE n →
      insert cutF fuel n v = some n2 → AllNE n2) ∧
    (∀ (r : T) (vs : List T) (t : BspNode T), build cutF fuel r vs = some t → AllNE t) := by
  refine ⟨new_allNE, fun n v n2 hne h => insert_allNE cutF fuel n v n2 h hne, ?_⟩
  intro r vs t h
  exact insertAll_pred (P := AllNE) _ vs
    (fun a w c _ hw hp => insert_allNE cutF fuel a w c hw hp) (new r) t h (new_allNE r)

/-- Witness for C7 at a concrete built `Plane1D` tree. -/
theorem C7_nonempty_witness :
    AllNE (mk [((0 : Int), true)] none (some (new ((1 : Int), true)))) :=
  (C7_nonempty cut1D 2).2.2 ((0 : Int), true) [((1 : Int), true)]
    (mk [((0 : Int), true)] none (some (new ((1 : Int), true)))) rfl

/-- Claim C8: concrete depth scenario for `Plane1D` — from `new (1,true)`,
inserting `(6,true)`, `(8,true)`, `(6,true)` again and `(-5,false)` yields the
depth sequence 1, 2, 3, 3, 3; the duplicate `(6,true)` joins the existing
`(6,true)` node as a sibling (visible in the stored multiset) and leaves the
depth unchanged. -/
theorem C8_depth_scenario :
    (build cut1D 10 ((1 : Int), true) []).map get_depth = some 1 ∧
    (build cut1D 10 ((1 : Int), true) [((6 : Int), true)]).map get_depth = some 2 ∧
    (build cut1D 10 ((1 : Int), true)
      [((6 : Int), true), ((8 : Int), true)]).map get_depth = some 3 ∧
    (build cut1D 10 ((1 : Int), true)
      [((6 : Int), true), ((8 : Int), true), ((6 : Int), true)]).map get_depth = some 3 ∧
    (build cut1D 10 ((1 : Int), true)
      [((6 : Int), true), ((8 : Int), true), ((6 : Int), true),
        ((-5 : Int), false)]).map get_depth = some 3 ∧
    (build cut1D 10 ((1 : Int), true)
      [((6 : Int), true), ((8 : Int), true), ((6 : Int), true)]).map treeVals =
      some [((1 : Int), true), ((6 : Int), true), ((6 : Int), true), ((8 : Int), true)] := by
  refine ⟨rfl, rfl, rfl, rfl, rfl, rfl⟩

/-- Claim C9: frame property of `order` — the tree is read-only (the embedding
is purely functional, `order` returns only the output list and takes the tree
by value), the prior contents of `out` survive as an unchanged prefix, and the
traversal output is appended after them; likewise for `order_self`. -/
theorem C9_frame {T : Type} [Inhabited T] (alignedF : T → T → Bool) (t : BspNode T)
    (base : T) (out : List T) :
    order alignedF t base out = out ++ order alignedF t base [] ∧
    out <+: order alignedF t base out ∧
    order_self alignedF t out = out ++ order_self alignedF t [] := by
  refine ⟨order_append alignedF t base out, ?_,
    order_append alignedF t t.values.headI out⟩
  rw [order_append]
  exact List.prefix_append out _

/-- Claim C10 (amendment-free): reference-plane immutability — `insert` only
extends a tree: every existing node survives, its `values` list survives as a
prefix (so `values[0]`, and the order and content of previously stored values,
are untouched), and existing child subtrees are never replaced; consequently
the root value passed to `new` remains `values[0]` of the root of any built
tree. -/
theorem C10_immutable {T : Type} [Inhabited T] (cutF : T → T → PlaneCut T) (fuel : Nat) :
    (∀ (n : BspNode T) (v : T) (n2 : BspNode T),
      insert cutF fuel n v = some n2 → Extends n n2) ∧
    (∀ (n n2 : BspNode T), Extends n n2 → n.values <+: n2.values) ∧
    (∀ (n n2 : BspNode T), Extends n n2 → n.values ≠ [] →
      n2.values.headI = n.values.headI) ∧
    (∀ (r : T) (vs : List T) (t : BspNode T), build cutF fuel r vs = some t →
      Extends (new r) t ∧ t.values.headI = r) := by
  refine ⟨insert_extends cutF fuel, ?_, Extends_headI, ?_⟩
  · intro n n2 h
    cases h with
    | mk hpre _ _ => simpa using hpre
  · intro r vs t h
    have hext : Extends (new r) t := insertAll_rel Extends_rfl Extends_trans _ vs
      (fun a v c _ hv => insert_extends cutF fuel a v c hv) (new r) t h
    refine ⟨hext, ?_⟩
    have hh := Extends_headI (new r) t hext (by simp [new])
    simpa [new] using hh

/-- Witness for C10 at a concrete built `Plane1D` tree. -/
theorem C10_immutable_witness :
    Extends (new ((0 : Int), true))
      (mk [((0 : Int), true)] none (some (new ((1 : Int), true)))) ∧
    (mk [((0 : Int), true)] none (some (new ((1 : Int), true)))).values.headI =
      ((0 : Int), true) :=
  (C10_immutable cut1D 2).2.2.2 ((0 : Int), true) [((1 : Int), true)]
    (mk [((0 : Int), true)] none (some (new ((1 : Int), true)))) rfl

/-- Counterexample to claim C2 as stated: with the shared direction `false`
(allowed by "one fixed boolean direction shared by all values"), building from
root `(0,false)` and inserting `(1,false)` makes `order_self` return
`[(1,false), (0,false)]`, whose keys are not in ascending order — the output
is not "sorted by their integer key" in the usual ascending sense. -/
theorem C2_counterexample :
    build cut1D 2 ((0 : Int), false) [((1 : Int), false)] =
      some (mk [((0 : Int), false)] (some (new ((1 : Int), false))) none) ∧
    order_self aligned1D (mk [((0 : Int), false)] (some (new ((1 : Int), false))) none)
      [] = [((1 : Int), false), ((0 : Int), false)] ∧
    ¬ List.Sorted (fun a b : Plane1D => a.1 ≤ b.1)
      [((1 : Int), false), ((0 : Int), false)] :=
  ⟨rfl, rfl, by decide⟩

/-- Claim C2 as amended: for the 1-D integer-keyed `Plane1D` implementation
with one fixed boolean direction `d` shared by the root and all inserted
values, any insertion order produces a tree whose `order_self` output is a
permutation of the inserted values sorted by their integer key — ascending
when `d` is `true` and descending when `d` is `false` (the direction reverses
the traversal's key order). -/
theorem C2_sorted {d : Bool} (fuel : Nat) (r : Plane1D) (vs : List Plane1D)
    (t : BspNode Plane1D) (hr : r.2 = d) (hvs : ∀ v ∈ vs, v.2 = d)
    (hbuild : build cut1D fuel r vs = some t) :
    (order_self aligned1D t []).Perm (r :: vs) ∧
    List.Pairwise (fun a b : Plane1D => keyLE d a.1 b.1) (order_self aligned1D t []) ∧
    (d = true → List.Sorted (fun a b : Plane1D => a.1 ≤ b.1)
      (order_self aligned1D t [])) ∧
    (d = false → List.Sorted (fun a b : Plane1D => b.1 ≤ a.1)
      (order_self aligned1D t [])) := by
  have hinv := build_inv1D fuel r vs t hr hvs hbuild
  have hhead : t.values.headI.2 = d := by
    cases t with
    | mk vs2 f b =>
      cases hinv with
      | @mk k _ _ _ hne hvs2 _ _ _ _ =>
        rw [values_mk, inv1D_headI hne hvs2]
  have hord : order_self aligned1D t [] = treeVals t :=
    inv1D_order t.values.headI hhead t hinv
  have hperm : (order_self aligned1D t []).Perm (r :: vs) := by
    rw [hord]
    exact build_treeVals cut1D cut1D_cons fuel r vs t hbuild
  have hpair : List.Pairwise (fun a b : Plane1D => keyLE d a.1 b.1)
      (order_self aligned1D t []) := by
    rw [hord]
    exact inv1D_pairwise t hinv
  refine ⟨hperm, hpair, ?_, ?_⟩
  · intro hd
    subst hd
    exact hpair.imp (fun h => by simpa [keyLE] using h)
  · intro hd
    subst hd
    exact hpair.imp (fun h => by simpa [keyLE] using h)

/-- Witness for the amended C2: direction `true`, root `(1,true)`, inserting
`(0,true)` yields the ascending output `[(0,true), (1,true)]`. -/
theorem C2_sorted_witness :
    order_self aligned1D (mk [((1 : Int), true)] (some (new ((0 : Int), true))) none) [] =
      [((0 : Int), true), ((1 : Int), true)] ∧
    (order_self aligned1D (mk [((1 : Int), true)] (some (new ((0 : Int), true))) none)
      []).Perm [((1 : Int), true), ((0 : Int), true)] ∧
    List.Sorted (fun a b : Plane1D => a.1 ≤ b.1)
      (order_self aligned1D (mk [((1 : Int), true)] (some (new ((0 : Int), true))) none)
        []) :=
  ⟨rfl,
    (C2_sorted 2 ((1 : Int), true) [((0 : Int), true)]
      (mk [((1 : Int), true)] (some (new ((0 : Int), true))) none) rfl
      (by decide) rfl).1,
    (C2_sorted 2 ((1 : Int), true) [((0 : Int), true)]
      (mk [((1 : Int), true)] (some (new ((0 : Int), true))) none) rfl
      (by decide) rfl).2.2.1 rfl⟩
